import Mathlib

/-!
Shallow embedding of the custom-mode configuration resolution engine of the
repository: the `ModesDirectoryLoader` class (recursive directory scan,
per-file load/validate, duplicate-slug detection, slug sort) and the
precedence merge performed by `CustomModesManager.getCustomModes`.

The filesystem is modelled as a tree of named entries; the outcome of
reading and parsing one file is modelled by `FileData`, which distinguishes
a failing read, a failing parse, a parse that does not produce a single
mapping, and a mapping (which is then schema-validated).
-/

/-- Provenance scope of a mode: project (repository-local) or global
(user-wide). -/
inductive ModeSource where
  | project
  | global
deriving DecidableEq, Repr

/-- A resolved mode configuration (`ModeConfig` in `@roo-code/types`): slug,
display name, role definition, capability groups, and an optional provenance
tag. -/
structure Mode where
  slug : String
  name : String
  roleDefinition : String
  groups : List String
  source : Option ModeSource
deriving DecidableEq, Repr

/-- A raw YAML mapping as found in a candidate mode file: every schema field
may be absent. -/
structure RawMode where
  slug : Option String
  name : Option String
  roleDefinition : Option String
  groups : Option (List String)
  source : Option ModeSource
deriving DecidableEq, Repr

/-- Modelled from the spec: `modeConfigSchema.safeParse` from
`@roo-code/types` is an external collaborator not present in the repository.
Per the spec's schema table, `slug`, `name`, `roleDefinition` and `groups`
are required; `source` is advisory and carried through. Returns the
validated mode, or `none` on a field error. -/
def modeConfigSafeParse (r : RawMode) : Option Mode :=
  match r.slug, r.name, r.roleDefinition, r.groups with
  | some s, some n, some rd, some g =>
      some { slug := s, name := n, roleDefinition := rd, groups := g, source := r.source }
  | _, _, _, _ => none

/-- The observable content of one file, as seen by `loadAndValidateMode`:
the read can fail (I/O error), the YAML parse can fail, the parse can yield
something other than a single mapping (null, scalar or array), or it yields
a raw mapping. -/
inductive FileData where
  | readFail
  | parseFail
  | nonMapping
  | mapping (r : RawMode)
deriving DecidableEq, Repr

/-- `ModesDirectoryLoader.loadAndValidateMode`: the whole body — including
the `readFile` call — sits inside one try/catch whose handler logs and
returns `null`, so every failure (read, parse, non-mapping shape, schema)
yields `none`; only a validated mapping yields a mode. -/
def loadAndValidateMode (d : FileData) : Option Mode :=
  match d with
  | .readFail => none
  | .parseFail => none
  | .nonMapping => none
  | .mapping r => modeConfigSafeParse r

/-- `ModesDirectoryLoader.EXCLUDED_DIRS`: directories never traversed. -/
def EXCLUDED_DIRS : List String :=
  [".git", ".svn", ".hg", "node_modules", "dist", "build", ".next", ".cache",
   ".idea", ".vscode", ".DS_Store"]

/-- `ModesDirectoryLoader.EXCLUDED_FILES`: files never considered. -/
def EXCLUDED_FILES : List String := [".DS_Store", "Thumbs.db"]

/-- `ModesDirectoryLoader.ALLOWED_EXTENSIONS`: extensions of candidate mode
files. -/
def ALLOWED_EXTENSIONS : List String := [".yaml", ".yml"]

/-- `String.prototype.startsWith`, computed on the character list. -/
def strStartsWith (s pre : String) : Bool := pre.data.isPrefixOf s.data

/-- `String.prototype.toLowerCase`, computed characterwise. -/
def strToLower (s : String) : String := String.mk (s.data.map Char.toLower)

/-- Index of the last occurrence of a dot in a character list. -/
def lastDotIdx : List Char → Option Nat
  | [] => none
  | c :: rest =>
    match lastDotIdx rest with
    | some i => some (i + 1)
    | none => if c = '.' then some 0 else none

/-- Node's `path.extname` applied to a bare entry name: the suffix starting
at the last dot, except that a name with no dot, or whose only dot is its
leading character, has the empty extension. -/
def extname (s : String) : String :=
  match lastDotIdx s.data with
  | none => ""
  | some 0 => ""
  | some i => String.mk (s.data.drop i)

/-- A directory tree. `badDir` stands for a directory whose `readdir` fails
(missing or unreadable); the entry list order is the directory-listing
order returned by `readdir`. -/
inductive FSTree where
  | file (d : FileData)
  | dir (entries : List (String × FSTree))
  | badDir
deriving Repr

/-- The hidden-entry test of `scanForModeFiles`: name starts with `.` and is
not the exempted `.roo` directory. In the source this check only skips the
entry when it is a directory. -/
def hiddenSkip (name : String) : Bool :=
  strStartsWith name "." && name != ".roo"

/-- Whether a directory entry is skipped: the hidden check, then membership
in `EXCLUDED_DIRS` (the source performs these two tests in this order). -/
def dirSkip (name : String) : Bool :=
  hiddenSkip name || EXCLUDED_DIRS.contains name

/-- Whether a file entry is a candidate: not in `EXCLUDED_FILES`, lowercased
extension in `ALLOWED_EXTENSIONS`, and (`shouldIncludeModeFile`) base name
not starting with an underscore — the three tests the source applies, in
order. -/
def fileOk (name : String) : Bool :=
  !(EXCLUDED_FILES.contains name) &&
  ALLOWED_EXTENSIONS.contains (strToLower (extname name)) &&
  !(strStartsWith name "_")

/-- The recursive walk of `scanForModeFiles`, driven by directory listings.
Produces, in listing order, the (root-relative path, file content) pairs of
candidate mode files. A `badDir` entry contributes nothing: the hidden
check may skip it, the excluded-directory check may skip it, and otherwise
the walk's `readdir` fails and is caught, returning without results. -/
def scanEntries : List (String × FSTree) → List (List String × FileData)
  | [] => []
  | (name, .file d) :: rest =>
    (if fileOk name then [([name], d)] else []) ++ scanEntries rest
  | (name, .dir es) :: rest =>
    (if dirSkip name then []
     else (scanEntries es).map (fun pd => (name :: pd.1, pd.2))) ++ scanEntries rest
  | (_, .badDir) :: rest => scanEntries rest

/-- One step of the walk, for a single entry. -/
def processEntry (name : String) : FSTree → List (List String × FileData)
  | .file d => if fileOk name then [([name], d)] else []
  | .dir es =>
    if dirSkip name then []
    else (scanEntries es).map (fun pd => (name :: pd.1, pd.2))
  | .badDir => []

/-- `scanForModeFiles` on the root: `readdir` of a missing or unreadable
root fails and is caught, yielding no candidates. -/
def scanRoot : FSTree → List (List String × FileData)
  | .dir es => scanEntries es
  | _ => []

/-- The error thrown by `loadModesFromDirectory` on a duplicate slug,
holding the slug and both conflicting file paths (the path recorded in
`slugToFile` first, then the current file). -/
structure DuplicateSlugError where
  slug : String
  firstPath : List String
  secondPath : List String
deriving DecidableEq, Repr

/-- Rendering of a path for the error message. -/
def pathToString (p : List String) : String := String.intercalate "/" p

/-- The message of the thrown error, naming the slug and both paths. -/
def DuplicateSlugError.message (e : DuplicateSlugError) : String :=
  "Duplicate mode slug detected: \"" ++ e.slug ++ "\". Files: " ++
    pathToString e.firstPath ++ " and " ++ pathToString e.secondPath

/-- Lookup in the `slugToFile` association (first match). -/
def lookupSlug : List (String × List String) → String → Option (List String)
  | [], _ => none
  | (s, p) :: rest, q => if s = q then some p else lookupSlug rest q

/-- The accumulation loop of `loadModesFromDirectory`: load each scanned
file, skip the ones that fail to load or validate, record slug-to-path for
the rest, and throw on a slug already recorded. -/
def collectModes :
    List (List String × FileData) → List (String × List String) →
    Except DuplicateSlugError (List Mode)
  | [], _ => .ok []
  | (p, d) :: rest, seen =>
    match loadAndValidateMode d with
    | none => collectModes rest seen
    | some m =>
      match lookupSlug seen m.slug with
      | some q => .error { slug := m.slug, firstPath := q, secondPath := p }
      | none => (collectModes rest ((m.slug, p) :: seen)).map (fun ms => m :: ms)

/-- Slug comparison used by the final sort (`a.slug.localeCompare(b.slug)`,
modelled as lexicographic string order, which coincides with it on the
ASCII slugs the schema produces). -/
def slugLe (a b : Mode) : Prop := a.slug ≤ b.slug

instance : DecidableRel slugLe := fun a b => inferInstanceAs (Decidable (a.slug ≤ b.slug))

/-- The final deterministic sort by slug. -/
def sortBySlug (l : List Mode) : List Mode := List.insertionSort slugLe l

/-- `ModesDirectoryLoader.loadModesFromDirectory`: scan, load each candidate,
detect duplicate slugs, and sort the result by slug. -/
def loadModesFromDirectory (t : FSTree) : Except DuplicateSlugError (List Mode) :=
  (collectModes (scanRoot t) []).map sortBySlug

/-- The modes of the files that load and validate successfully, in scan
order. -/
def validModes (files : List (List String × FileData)) : List Mode :=
  files.filterMap (fun pd => loadAndValidateMode pd.2)

/-- The slugs of the successfully validated files, in scan order. -/
def validSlugs (files : List (List String × FileData)) : List String :=
  (validModes files).map Mode.slug

mutual

/-- Well-formedness of a directory tree: within each directory the entry
names are distinct, as `readdir` guarantees. -/
def wfTree : FSTree → Bool
  | .file _ => true
  | .badDir => true
  | .dir es => wfEntries es

/-- Well-formedness of an entry list (see `wfTree`). -/
def wfEntries : List (String × FSTree) → Bool
  | [] => true
  | (n, t) :: rest => !(rest.any (fun e => e.1 = n)) && wfTree t && wfEntries rest

end

instance {ε α : Type} [DecidableEq ε] [DecidableEq α] : DecidableEq (Except ε α) := fun x y =>
  match x, y with
  | .ok a, .ok b =>
    if h : a = b then .isTrue (by rw [h]) else .isFalse (fun hh => h (Except.ok.inj hh))
  | .error a, .error b =>
    if h : a = b then .isTrue (by rw [h]) else .isFalse (fun hh => h (Except.error.inj hh))
  | .ok _, .error _ => .isFalse (fun hh => Except.noConfusion hh)
  | .error _, .ok _ => .isFalse (fun hh => Except.noConfusion hh)

/-- Modelled from the spec: the SourceAggregator stamps every mode of a
source with the scope it was loaded from; a stored `source` value is never
trusted verbatim. -/
def stampSource (src : ModeSource) (l : List Mode) : List Mode :=
  l.map (fun m => { m with source := some src })

/-- Modelled from the spec: the PrecedenceResolver's merge rule — process
the sources in precedence order and keep, for each slug, the entry of the
first source in which it appears; a slug already present is never
overwritten. `seen` holds the slugs already inserted. -/
def mergeModes : List Mode → List String → List Mode
  | [], _ => []
  | m :: rest, seen =>
    if seen.contains m.slug then mergeModes rest seen
    else m :: mergeModes rest (m.slug :: seen)

/-- The four aggregated sources laid out in precedence order, each stamped
with its scope: project directory, project monolithic file, global
directory, global monolithic settings file. -/
def allSources (projDir projFile globDir globFile : List Mode) : List Mode :=
  stampSource .project projDir ++ stampSource .project projFile ++
  stampSource .global globDir ++ stampSource .global globFile

/-- Modelled from the spec: `CustomModesManager.getCustomModes` (only its
tests are present in the repository) — aggregate the four sources, stamp
scopes, merge by precedence with first-occurrence-wins, and return the
slug-sorted list. -/
def getCustomModes (projDir projFile globDir globFile : List Mode) : List Mode :=
  sortBySlug (mergeModes (allSources projDir projFile globDir globFile) [])

/-- First mode with the given slug, as a consumer would look one up. -/
def lookupMode (l : List Mode) (s : String) : Option Mode :=
  l.find? (fun m => m.slug == s)

theorem lookupSlug_eq_some_mem :
    ∀ seen s q, lookupSlug seen s = some q → (s, q) ∈ seen := by
  intro seen
  induction seen with
  | nil => intro s q h; simp [lookupSlug] at h
  | cons x rest ih =>
    intro s q h
    obtain ⟨s', q'⟩ := x
    by_cases hs : s' = s
    · subst hs
      simp [lookupSlug] at h
      simp [h]
    · simp only [lookupSlug, if_neg hs] at h
      exact List.mem_cons_of_mem _ (ih s q h)

theorem lookupSlug_isSome_of_mem :
    ∀ seen s q, (s, q) ∈ seen → ∃ q', lookupSlug seen s = some q' := by
  intro seen
  induction seen with
  | nil => intro s q h; simp at h
  | cons x rest ih =>
    intro s q h
    obtain ⟨s', q'⟩ := x
    by_cases hs : s' = s
    · exact ⟨q', by simp [lookupSlug, hs]⟩
    · rcases List.mem_cons.mp h with heq | hmem
      · exact absurd (congrArg Prod.fst heq).symm hs
      · simpa [lookupSlug, if_neg hs] using ih s q hmem

theorem mem_validModes {files : List (List String × FileData)} {m : Mode} :
    m ∈ validModes files ↔ ∃ p d, (p, d) ∈ files ∧ loadAndValidateMode d = some m := by
  simp only [validModes, List.mem_filterMap]
  constructor
  · rintro ⟨⟨p, d⟩, hmem, hf⟩
    exact ⟨p, d, hmem, hf⟩
  · rintro ⟨p, d, hmem, hf⟩
    exact ⟨(p, d), hmem, hf⟩

theorem validModes_cons_none {p d rest} (hd : loadAndValidateMode d = none) :
    validModes ((p, d) :: rest) = validModes rest := by
  simp [validModes, List.filterMap_cons, hd]

theorem validModes_cons_some {p d rest m} (hd : loadAndValidateMode d = some m) :
    validModes ((p, d) :: rest) = m :: validModes rest := by
  simp [validModes, List.filterMap_cons, hd]

theorem collect_skip (p : List String) (d : FileData) (hd : loadAndValidateMode d = none) :
    ∀ xs ys seen, collectModes (xs ++ (p, d) :: ys) seen = collectModes (xs ++ ys) seen := by
  intro xs
  induction xs with
  | nil => intro ys seen; simp only [List.nil_append, collectModes, hd]
  | cons x xs ih =>
    intro ys seen
    obtain ⟨q, e⟩ := x
    cases he : loadAndValidateMode e with
    | none =>
      simp only [List.cons_append, collectModes, he]
      exact ih ys seen
    | some m =>
      cases hl : lookupSlug seen m.slug with
      | some cp => simp only [List.cons_append, collectModes, he, hl]
      | none =>
        simp only [List.cons_append, collectModes, he, hl]
        exact congrArg _ (ih ys ((m.slug, q) :: seen))

theorem collect_ok_eq :
    ∀ files seen l, collectModes files seen = .ok l → l = validModes files := by
  intro files
  induction files with
  | nil =>
    intro seen l h
    simp only [collectModes, Except.ok.injEq] at h
    simp [validModes, ← h]
  | cons x rest ih =>
    intro seen l h
    obtain ⟨p, d⟩ := x
    cases hd : loadAndValidateMode d with
    | none =>
      simp only [collectModes, hd] at h
      rw [validModes_cons_none hd]
      exact ih _ _ h
    | some m =>
      cases hl : lookupSlug seen m.slug with
      | some q =>
        simp only [collectModes, hd, hl] at h
        exact absurd h (by simp)
      | none =>
        simp only [collectModes, hd, hl] at h
        cases hc : collectModes rest ((m.slug, p) :: seen) with
        | error e => rw [hc] at h; exact absurd h (by simp [Except.map])
        | ok l2 =>
          rw [hc] at h
          simp only [Except.map, Except.ok.injEq] at h
          rw [validModes_cons_some hd, ← ih _ _ hc, ← h]

theorem validSlugs_cons_none {p d rest} (hd : loadAndValidateMode d = none) :
    validSlugs ((p, d) :: rest) = validSlugs rest := by
  simp [validSlugs, validModes_cons_none hd]

theorem validSlugs_cons_some {p d rest m} (hd : loadAndValidateMode d = some m) :
    validSlugs ((p, d) :: rest) = m.slug :: validSlugs rest := by
  simp [validSlugs, validModes_cons_some hd]

theorem collect_ok_nodup :
    ∀ files seen l, collectModes files seen = .ok l →
      (validSlugs files).Nodup ∧ ∀ s ∈ seen.map Prod.fst, s ∉ validSlugs files := by
  intro files
  induction files with
  | nil =>
    intro seen l _
    simp [validSlugs, validModes]
  | cons x rest ih =>
    intro seen l h
    obtain ⟨p, d⟩ := x
    cases hd : loadAndValidateMode d with
    | none =>
      simp only [collectModes, hd] at h
      rw [validSlugs_cons_none hd]
      exact ih _ _ h
    | some m =>
      cases hl : lookupSlug seen m.slug with
      | some q =>
        simp only [collectModes, hd, hl] at h
        exact absurd h (by simp)
      | none =>
        simp only [collectModes, hd, hl] at h
        cases hc : collectModes rest ((m.slug, p) :: seen) with
        | error e => rw [hc] at h; exact absurd h (by simp [Except.map])
        | ok l2 =>
          obtain ⟨ihn, ihs⟩ := ih _ _ hc
          rw [validSlugs_cons_some hd]
          have hmslug : m.slug ∉ validSlugs rest :=
            ihs m.slug (by simp)
          constructor
          · exact List.nodup_cons.mpr ⟨hmslug, ihn⟩
          · intro s hsmem hin
            rcases List.mem_cons.mp hin with heq | hmem2
            · subst heq
              rcases List.mem_map.mp hsmem with ⟨⟨s', q'⟩, hmem', hfst⟩
              have hs' : s' = m.slug := hfst
              subst hs'
              rcases lookupSlug_isSome_of_mem seen _ q' hmem' with ⟨q2, hq2⟩
              rw [hq2] at hl
              exact Option.noConfusion hl
            · exact ihs s (by simp only [List.map_cons]; exact List.mem_cons_of_mem _ hsmem) hmem2

theorem collect_ok_of_nodup :
    ∀ files seen, (validSlugs files).Nodup →
      (∀ s ∈ validSlugs files, lookupSlug seen s = none) →
      collectModes files seen = .ok (validModes files) := by
  intro files
  induction files with
  | nil => intro seen _ _; simp [collectModes, validModes]
  | cons x rest ih =>
    intro seen hn hdisj
    obtain ⟨p, d⟩ := x
    cases hd : loadAndValidateMode d with
    | none =>
      have hvs := @validSlugs_cons_none p d rest hd
      simp only [collectModes, hd]
      rw [validModes_cons_none hd]
      exact ih seen (hvs ▸ hn) (fun s hs => hdisj s (hvs ▸ hs))
    | some m =>
      have hvs := @validSlugs_cons_some p d rest m hd
      have hl : lookupSlug seen m.slug = none :=
        hdisj m.slug (by rw [hvs]; exact List.mem_cons_self _ _)
      rw [hvs] at hn hdisj
      simp only [collectModes, hd, hl]
      rw [ih ((m.slug, p) :: seen) (List.nodup_cons.mp hn).2 ?_]
      · simp only [Except.map]
        rw [validModes_cons_some hd]
      · intro s hs
        have hne : m.slug ≠ s := by
          intro he
          exact (List.nodup_cons.mp hn).1 (he ▸ hs)
        simp only [lookupSlug, if_neg hne]
        exact hdisj s (List.mem_cons_of_mem _ hs)

theorem collect_error_exists :
    ∀ files seen,
      ((∃ p₁ d₁ m₁ p₂ d₂ m₂, (p₁, d₁) ∈ files ∧ (p₂, d₂) ∈ files ∧ p₁ ≠ p₂ ∧
          loadAndValidateMode d₁ = some m₁ ∧ loadAndValidateMode d₂ = some m₂ ∧
          m₁.slug = m₂.slug) ∨
        (∃ p d m, (p, d) ∈ files ∧ loadAndValidateMode d = some m ∧
          ∃ q, (m.slug, q) ∈ seen)) →
      ∃ e, collectModes files seen = .error e := by
  intro files
  induction files with
  | nil =>
    intro seen h
    rcases h with ⟨p₁, d₁, m₁, p₂, d₂, m₂, h1, _⟩ | ⟨p, d, m, h1, _⟩
    · simp at h1
    · simp at h1
  | cons x rest ih =>
    intro seen h
    obtain ⟨p, d⟩ := x
    cases hd : loadAndValidateMode d with
    | none =>
      simp only [collectModes, hd]
      apply ih
      rcases h with ⟨p₁, d₁, m₁, p₂, d₂, m₂, h1, h2, hne, hv1, hv2, hs⟩ |
        ⟨p', d', m', h1, hv, q, hq⟩
      · left
        refine ⟨p₁, d₁, m₁, p₂, d₂, m₂, ?_, ?_, hne, hv1, hv2, hs⟩
        · rcases List.mem_cons.mp h1 with he | hm
          · obtain ⟨rfl, rfl⟩ := Prod.mk.injEq .. ▸ he
            rw [hd] at hv1
            exact Option.noConfusion hv1
          · exact hm
        · rcases List.mem_cons.mp h2 with he | hm
          · obtain ⟨rfl, rfl⟩ := Prod.mk.injEq .. ▸ he
            rw [hd] at hv2
            exact Option.noConfusion hv2
          · exact hm
      · right
        refine ⟨p', d', m', ?_, hv, q, hq⟩
        rcases List.mem_cons.mp h1 with he | hm
        · obtain ⟨rfl, rfl⟩ := Prod.mk.injEq .. ▸ he
          rw [hd] at hv
          exact Option.noConfusion hv
        · exact hm
    | some m =>
      cases hl : lookupSlug seen m.slug with
      | some q0 =>
        exact ⟨⟨m.slug, q0, p⟩, by simp only [collectModes, hd, hl]⟩
      | none =>
        have step : ∃ e, collectModes rest ((m.slug, p) :: seen) = .error e := by
          apply ih
          rcases h with ⟨p₁, d₁, m₁, p₂, d₂, m₂, h1, h2, hne, hv1, hv2, hs⟩ |
            ⟨p', d', m', h1, hv, q, hq⟩
          · rcases List.mem_cons.mp h1 with he1 | hm1
            · obtain ⟨rfl, rfl⟩ := Prod.mk.injEq .. ▸ he1
              have hm1m : m₁ = m := Option.some.inj (hv1.symm.trans hd)
              rcases List.mem_cons.mp h2 with he2 | hm2
              · obtain ⟨rfl, rfl⟩ := Prod.mk.injEq .. ▸ he2
                exact absurd rfl hne
              · right
                refine ⟨p₂, d₂, m₂, hm2, hv2, p₁, ?_⟩
                have : m₂.slug = m.slug := by rw [← hs, hm1m]
                rw [this]
                exact List.mem_cons_self _ _
            · rcases List.mem_cons.mp h2 with he2 | hm2
              · obtain ⟨rfl, rfl⟩ := Prod.mk.injEq .. ▸ he2
                have hm2m : m₂ = m := Option.some.inj (hv2.symm.trans hd)
                right
                refine ⟨p₁, d₁, m₁, hm1, hv1, p₂, ?_⟩
                have : m₁.slug = m.slug := by rw [hs, hm2m]
                rw [this]
                exact List.mem_cons_self _ _
              · left
                exact ⟨p₁, d₁, m₁, p₂, d₂, m₂, hm1, hm2, hne, hv1, hv2, hs⟩
          · rcases List.mem_cons.mp h1 with he | hm
            · obtain ⟨rfl, rfl⟩ := Prod.mk.injEq .. ▸ he
              have hm'm : m' = m := Option.some.inj (hv.symm.trans hd)
              rcases lookupSlug_isSome_of_mem seen _ q (hm'm ▸ hq) with ⟨q2, hq2⟩
              rw [hq2] at hl
              exact Option.noConfusion hl
            · right
              exact ⟨p', d', m', hm, hv, q, List.mem_cons_of_mem _ hq⟩
        rcases step with ⟨e, he⟩
        refine ⟨e, ?_⟩
        simp only [collectModes, hd, hl, he, Except.map]

theorem collect_error_char :
    ∀ files seen e, collectModes files seen = .error e →
      (files.map Prod.fst).Nodup →
      (∀ sp ∈ seen, sp.2 ∉ files.map Prod.fst) →
      (∃ d2 m2, (e.secondPath, d2) ∈ files ∧ loadAndValidateMode d2 = some m2 ∧
        m2.slug = e.slug) ∧
      ((e.slug, e.firstPath) ∈ seen ∨
        ∃ d1 m1, (e.firstPath, d1) ∈ files ∧ loadAndValidateMode d1 = some m1 ∧
          m1.slug = e.slug) ∧
      e.firstPath ≠ e.secondPath := by
  intro files
  induction files with
  | nil =>
    intro seen e h
    simp [collectModes] at h
  | cons x rest ih =>
    intro seen e h hnd hdisj
    obtain ⟨p, d⟩ := x
    have hpn : p ∉ rest.map Prod.fst := by
      simp only [List.map_cons, List.nodup_cons] at hnd
      exact hnd.1
    have hnd' : (rest.map Prod.fst).Nodup := by
      simp only [List.map_cons, List.nodup_cons] at hnd
      exact hnd.2
    cases hd : loadAndValidateMode d with
    | none =>
      simp only [collectModes, hd] at h
      have hdisj' : ∀ sp ∈ seen, sp.2 ∉ rest.map Prod.fst := by
        intro sp hsp hmem
        exact hdisj sp hsp (by simp only [List.map_cons]; exact List.mem_cons_of_mem _ hmem)
      obtain ⟨⟨d2, m2, hA1, hA2, hA3⟩, hB, hC⟩ := ih seen e h hnd' hdisj'
      refine ⟨⟨d2, m2, List.mem_cons_of_mem _ hA1, hA2, hA3⟩, ?_, hC⟩
      rcases hB with hL | ⟨d1, m1, h1, h2, h3⟩
      · exact Or.inl hL
      · exact Or.inr ⟨d1, m1, List.mem_cons_of_mem _ h1, h2, h3⟩
    | some m =>
      cases hl : lookupSlug seen m.slug with
      | some q0 =>
        simp only [collectModes, hd, hl, Except.error.injEq] at h
        subst h
        refine ⟨⟨d, m, List.mem_cons_self _ _, hd, rfl⟩, ?_, ?_⟩
        · exact Or.inl (lookupSlug_eq_some_mem seen _ _ hl)
        · intro hqp
          have hq0 : ((m.slug, q0) : String × List String).2 ∉ ((p, d) :: rest).map Prod.fst :=
            hdisj _ (lookupSlug_eq_some_mem seen _ _ hl)
          apply hq0
          simp only [List.map_cons]
          have hq : q0 = p := hqp
          rw [hq]
          exact List.mem_cons_self _ _
      | none =>
        simp only [collectModes, hd, hl] at h
        have hrec : collectModes rest ((m.slug, p) :: seen) = .error e := by
          cases hc : collectModes rest ((m.slug, p) :: seen) with
          | error e2 =>
            rw [hc] at h
            simp only [Except.map, Except.error.injEq] at h
            rw [h]
          | ok l2 =>
            rw [hc] at h
            exact absurd h (by simp [Except.map])
        have hdisj' : ∀ sp ∈ ((m.slug, p) :: seen), sp.2 ∉ rest.map Prod.fst := by
          intro sp hsp
          rcases List.mem_cons.mp hsp with heq | hmem
          · rw [heq]
            exact hpn
          · intro hmem2
            exact hdisj sp hmem (by simp only [List.map_cons]; exact List.mem_cons_of_mem _ hmem2)
        obtain ⟨⟨d2, m2, hA1, hA2, hA3⟩, hB, hC⟩ := ih _ e hrec hnd' hdisj'
        refine ⟨⟨d2, m2, List.mem_cons_of_mem _ hA1, hA2, hA3⟩, ?_, hC⟩
        rcases hB with hL | ⟨d1, m1, h1, h2, h3⟩
        · rcases List.mem_cons.mp hL with heq | hmem
          · have he1 : e.slug = m.slug := congrArg Prod.fst heq
            have he2 : e.firstPath = p := congrArg Prod.snd heq
            right
            exact ⟨d, m, by rw [he2]; exact List.mem_cons_self _ _, hd, he1.symm⟩
          · exact Or.inl hmem
        · exact Or.inr ⟨d1, m1, List.mem_cons_of_mem _ h1, h2, h3⟩

theorem scanEntries_cons (n : String) (t : FSTree) (rest : List (String × FSTree)) :
    scanEntries ((n, t) :: rest) = processEntry n t ++ scanEntries rest := by
  cases t <;> simp [scanEntries, processEntry]

theorem scanEntries_append :
    ∀ l₁ l₂, scanEntries (l₁ ++ l₂) = scanEntries l₁ ++ scanEntries l₂ := by
  intro l₁
  induction l₁ with
  | nil => intro l₂; simp [scanEntries]
  | cons x rest ih =>
    intro l₂
    obtain ⟨n, t⟩ := x
    rw [List.cons_append, scanEntries_cons, scanEntries_cons, ih, List.append_assoc]

theorem scan_path_shape :
    ∀ es, ∀ pd ∈ scanEntries es,
      ∃ dirs name, pd.1 = dirs ++ [name] ∧ (∀ seg ∈ dirs, dirSkip seg = false) ∧
        fileOk name = true := by
  intro es
  induction es using scanEntries.induct with
  | case1 => simp [scanEntries]
  | case2 name d rest ih =>
    intro pd hpd
    rw [scanEntries] at hpd
    rcases List.mem_append.mp hpd with h1 | h2
    · by_cases hf : fileOk name
      · rw [if_pos hf] at h1
        simp at h1
        refine ⟨[], name, ?_, by simp, hf⟩
        rw [h1]
        rfl
      · rw [if_neg hf] at h1
        simp at h1
    · exact ih pd h2
  | case3 name es' rest ih1 ih2 =>
    intro pd hpd
    rw [scanEntries] at hpd
    rcases List.mem_append.mp hpd with h1 | h2
    · by_cases hs : dirSkip name
      · rw [if_pos hs] at h1
        simp at h1
      · rw [if_neg hs] at h1
        rcases List.mem_map.mp h1 with ⟨qd, hqd, rfl⟩
        rcases ih1 qd hqd with ⟨dirs, nm, hsh, hdirs, hok⟩
        refine ⟨name :: dirs, nm, ?_, ?_, hok⟩
        · simp [hsh]
        · intro seg hseg
          rcases List.mem_cons.mp hseg with rfl | hm
          · simpa using hs
          · exact hdirs seg hm
    · exact ih2 pd h2
  | case4 n rest ih =>
    intro pd hpd
    rw [scanEntries] at hpd
    exact ih pd hpd

theorem scan_heads :
    ∀ es, ∀ pd ∈ scanEntries es, ∃ nm q, pd.1 = nm :: q ∧ nm ∈ es.map Prod.fst := by
  intro es
  induction es with
  | nil => simp [scanEntries]
  | cons x rest ih =>
    intro pd hpd
    obtain ⟨n, t⟩ := x
    rw [scanEntries_cons] at hpd
    rcases List.mem_append.mp hpd with h1 | h2
    · cases t with
      | file d =>
        simp only [processEntry] at h1
        by_cases hf : fileOk n
        · rw [if_pos hf] at h1
          simp at h1
          exact ⟨n, [], by rw [h1], by simp⟩
        · rw [if_neg hf] at h1
          simp at h1
      | dir es' =>
        simp only [processEntry] at h1
        by_cases hs : dirSkip n
        · rw [if_pos hs] at h1
          simp at h1
        · rw [if_neg hs] at h1
          rcases List.mem_map.mp h1 with ⟨qd, _, rfl⟩
          exact ⟨n, qd.1, rfl, by simp⟩
      | badDir => simp [processEntry] at h1
    · rcases ih pd h2 with ⟨nm, q, hq, hmem⟩
      exact ⟨nm, q, hq, by simp only [List.map_cons]; exact List.mem_cons_of_mem _ hmem⟩

theorem name_not_mem_of_any_false {rest : List (String × FSTree)} {n : String}
    (h : (rest.any (fun e => e.1 = n)) = false) : n ∉ rest.map Prod.fst := by
  intro hmem
  rcases List.mem_map.mp hmem with ⟨e, he, hfst⟩
  have := List.any_eq_false.mp h e he
  simp [hfst] at this

theorem scan_paths_nodup :
    ∀ es, wfEntries es = true → ((scanEntries es).map Prod.fst).Nodup := by
  intro es
  induction es using scanEntries.induct with
  | case1 => intro _; simp [scanEntries]
  | case2 name d rest ih =>
    intro hw
    simp only [wfEntries, Bool.and_eq_true, Bool.not_eq_true'] at hw
    have hn : name ∉ rest.map Prod.fst := name_not_mem_of_any_false hw.1.1
    have hrest := hw.2
    rw [scanEntries_cons, List.map_append]
    apply List.nodup_append.mpr
    refine ⟨?_, ih hrest, ?_⟩
    · by_cases hf : fileOk name
      · simp [processEntry, if_pos hf]
      · simp [processEntry, if_neg hf]
    · intro a ha hb
      by_cases hf : fileOk name
      · simp only [processEntry, if_pos hf] at ha
        simp at ha
        rcases List.mem_map.mp hb with ⟨pd, hpd, hfst⟩
        rcases scan_heads rest pd hpd with ⟨nm, q, hq, hmemn⟩
        have hc : nm :: q = [name] := by rw [← hq, hfst, ha]
        have hnm : nm = name := ((List.cons.injEq nm q name []).mp hc).1
        exact hn (hnm ▸ hmemn)
      · simp [processEntry, if_neg hf] at ha
  | case3 name es' rest ih1 ih2 =>
    intro hw
    simp only [wfEntries, wfTree, Bool.and_eq_true, Bool.not_eq_true'] at hw
    have hn : name ∉ rest.map Prod.fst := name_not_mem_of_any_false hw.1.1
    have hsub := hw.1.2
    have hrest := hw.2
    rw [scanEntries_cons, List.map_append]
    apply List.nodup_append.mpr
    refine ⟨?_, ih2 hrest, ?_⟩
    · by_cases hs : dirSkip name
      · simp [processEntry, if_pos hs]
      · simp only [processEntry, if_neg hs]
        rw [List.map_map]
        have he : (Prod.fst ∘ fun pd : List String × FileData => (name :: pd.1, pd.2)) =
            ((fun l => name :: l) ∘ Prod.fst) := rfl
        rw [he, ← List.map_map]
        apply List.Nodup.map
        · intro x y hxy
          injection hxy
        · exact ih1 hsub
    · intro a ha hb
      by_cases hs : dirSkip name
      · simp [processEntry, if_pos hs] at ha
      · simp only [processEntry, if_neg hs] at ha
        rcases List.mem_map.mp ha with ⟨pd2, hpd2, hfst2⟩
        rcases List.mem_map.mp hpd2 with ⟨pd0, hpd0, hpd0e⟩
        rcases List.mem_map.mp hb with ⟨pd, hpd, hfst⟩
        rcases scan_heads rest pd hpd with ⟨nm, q, hq, hmemn⟩
        have hc : nm :: q = a := by rw [← hq, hfst]
        have ha2 : a = name :: pd0.1 := by rw [← hfst2, ← hpd0e]
        have hnm : nm = name := by
          rw [ha2] at hc
          exact ((List.cons.injEq nm q name pd0.1).mp hc).1
        exact hn (hnm ▸ hmemn)
  | case4 n rest ih =>
    intro hw
    simp only [wfEntries, Bool.and_eq_true, Bool.not_eq_true'] at hw
    rw [scanEntries_cons]
    simp only [processEntry, List.nil_append]
    exact ih hw.2

instance : IsTotal Mode slugLe := ⟨fun a b => le_total a.slug b.slug⟩

instance : IsTrans Mode slugLe := ⟨fun _ _ _ h₁ h₂ => le_trans h₁ h₂⟩

/-- Strict slug comparison, used to show that two sorted lists with the same
elements and distinct slugs are equal. -/
def slugBelow (a b : Mode) : Prop := a.slug ≤ b.slug ∧ a.slug ≠ b.slug

instance : IsAntisymm Mode slugBelow :=
  ⟨fun _ _ h₁ h₂ => absurd (le_antisymm h₁.1 h₂.1) h₁.2⟩

theorem sortBySlug_perm (l : List Mode) : (sortBySlug l).Perm l :=
  List.perm_insertionSort slugLe l

theorem sortBySlug_sorted (l : List Mode) : List.Pairwise slugLe (sortBySlug l) :=
  List.sorted_insertionSort slugLe l

theorem pairwise_slugBelow_of_sorted {l : List Mode}
    (hs : List.Pairwise slugLe l) (hn : (l.map Mode.slug).Nodup) :
    List.Pairwise slugBelow l := by
  have hne : List.Pairwise (fun a b : Mode => a.slug ≠ b.slug) l :=
    List.pairwise_map.mp hn
  exact (hs.and hne).imp (fun h => ⟨h.1, h.2⟩)

theorem sortBySlug_eq_of_perm {l₁ l₂ : List Mode} (hp : l₁.Perm l₂)
    (hn : (l₁.map Mode.slug).Nodup) : sortBySlug l₁ = sortBySlug l₂ := by
  have hp' : (sortBySlug l₁).Perm (sortBySlug l₂) :=
    (sortBySlug_perm l₁).trans (hp.trans (sortBySlug_perm l₂).symm)
  have hn₁ : ((sortBySlug l₁).map Mode.slug).Nodup :=
    (((sortBySlug_perm l₁).map Mode.slug).nodup_iff).mpr hn
  have hn₂ : ((sortBySlug l₂).map Mode.slug).Nodup :=
    ((hp'.map Mode.slug).nodup_iff).mp hn₁
  exact List.eq_of_perm_of_sorted hp'
    (pairwise_slugBelow_of_sorted (sortBySlug_sorted l₁) hn₁)
    (pairwise_slugBelow_of_sorted (sortBySlug_sorted l₂) hn₂)

mutual

/-- Two trees hold the same files, with the directory listings possibly
returned in a different order at every level. -/
inductive FSPerm : FSTree → FSTree → Prop where
  | file (d : FileData) : FSPerm (.file d) (.file d)
  | badDir : FSPerm .badDir .badDir
  | dir (es₁ es₂ : List (String × FSTree)) : EntriesPerm es₁ es₂ → FSPerm (.dir es₁) (.dir es₂)

/-- Listing-order permutation of directory entries (same constructors as
`List.Perm`, with subtrees related by `FSPerm`). -/
inductive EntriesPerm : List (String × FSTree) → List (String × FSTree) → Prop where
  | nil : EntriesPerm [] []
  | cons (n : String) (t₁ t₂ : FSTree) (l₁ l₂ : List (String × FSTree)) :
      FSPerm t₁ t₂ → EntriesPerm l₁ l₂ → EntriesPerm ((n, t₁) :: l₁) ((n, t₂) :: l₂)
  | swap (e₁ e₂ : String × FSTree) (l : List (String × FSTree)) :
      EntriesPerm (e₁ :: e₂ :: l) (e₂ :: e₁ :: l)
  | trans (l₁ l₂ l₃ : List (String × FSTree)) :
      EntriesPerm l₁ l₂ → EntriesPerm l₂ l₃ → EntriesPerm l₁ l₃

end

theorem entriesPerm_scan {l₁ l₂ : List (String × FSTree)} (h : EntriesPerm l₁ l₂) :
    (scanEntries l₁).Perm (scanEntries l₂) := by
  refine @EntriesPerm.rec
    (fun t₁ t₂ _ => ∀ n, (processEntry n t₁).Perm (processEntry n t₂))
    (fun l₁ l₂ _ => (scanEntries l₁).Perm (scanEntries l₂))
    ?_ ?_ ?_ ?_ ?_ ?_ ?_ l₁ l₂ h
  · intro d n
    exact List.Perm.refl _
  · intro n
    exact List.Perm.refl _
  · intro es₁ es₂ hp ih n
    by_cases hs : dirSkip n
    · simp [processEntry, if_pos hs]
    · simp only [processEntry, if_neg hs]
      exact ih.map _
  · exact List.Perm.refl _
  · intro n t₁ t₂ l₁ l₂ hp he iht ihe
    rw [scanEntries_cons, scanEntries_cons]
    exact (iht n).append ihe
  · intro e₁ e₂ l
    obtain ⟨n₁, s₁⟩ := e₁
    obtain ⟨n₂, s₂⟩ := e₂
    rw [scanEntries_cons, scanEntries_cons, scanEntries_cons, scanEntries_cons,
      ← List.append_assoc, ← List.append_assoc]
    exact List.perm_append_comm.append_right _
  · intro l₁ l₂ l₃ h₁ h₂ ih₁ ih₂
    exact ih₁.trans ih₂

theorem fsPerm_scanRoot {t₁ t₂ : FSTree} (h : FSPerm t₁ t₂) :
    (scanRoot t₁).Perm (scanRoot t₂) := by
  cases h with
  | file d => exact List.Perm.refl _
  | badDir => exact List.Perm.refl _
  | dir es₁ es₂ hp => exact entriesPerm_scan hp

theorem lookupMode_cons (m : Mode) (rest : List Mode) (s : String) :
    lookupMode (m :: rest) s = if m.slug = s then some m else lookupMode rest s := by
  by_cases h : m.slug = s
  · rw [if_pos h]
    exact List.find?_cons_of_pos _ (by simp [h])
  · rw [if_neg h]
    exact List.find?_cons_of_neg _ (by simp [h])

theorem lookupMode_eq_none_iff {l : List Mode} {s : String} :
    lookupMode l s = none ↔ ∀ m ∈ l, m.slug ≠ s := by
  simp [lookupMode, List.find?_eq_none]

theorem mergeModes_lookup :
    ∀ l seen s, (s ∈ seen → lookupMode (mergeModes l seen) s = none) ∧
      (s ∉ seen → lookupMode (mergeModes l seen) s = lookupMode l s) := by
  intro l
  induction l with
  | nil =>
    intro seen s
    exact ⟨fun _ => rfl, fun _ => rfl⟩
  | cons m rest ih =>
    intro seen s
    by_cases hc : m.slug ∈ seen
    · have hcc : seen.contains m.slug = true := by simpa using hc
      have hmerge : mergeModes (m :: rest) seen = mergeModes rest seen := by
        simp only [mergeModes]
        rw [if_pos hcc]
      rw [hmerge]
      constructor
      · intro hs
        exact (ih seen s).1 hs
      · intro hs
        have hne : m.slug ≠ s := fun he => hs (he ▸ hc)
        rw [lookupMode_cons, if_neg hne]
        exact (ih seen s).2 hs
    · have hcc : seen.contains m.slug = false := by simpa using hc
      have hmerge : mergeModes (m :: rest) seen = m :: mergeModes rest (m.slug :: seen) := by
        simp only [mergeModes]
        rw [if_neg (by simp [hcc]; exact hc)]
      rw [hmerge]
      constructor
      · intro hs
        have hne : m.slug ≠ s := fun he => hc (he ▸ hs)
        rw [lookupMode_cons, if_neg hne]
        exact (ih (m.slug :: seen) s).1 (List.mem_cons_of_mem _ hs)
      · intro hs
        by_cases hms : m.slug = s
        · rw [lookupMode_cons, if_pos hms, lookupMode_cons, if_pos hms]
        · rw [lookupMode_cons, if_neg hms, lookupMode_cons, if_neg hms]
          have hnot : s ∉ m.slug :: seen := by
            intro hmem
            rcases List.mem_cons.mp hmem with he | hmem2
            · exact hms he.symm
            · exact hs hmem2
          exact (ih (m.slug :: seen) s).2 hnot

theorem mergeModes_slug_nodup :
    ∀ l seen, ((mergeModes l seen).map Mode.slug).Nodup ∧
      ∀ m ∈ mergeModes l seen, m.slug ∉ seen := by
  intro l
  induction l with
  | nil => intro seen; simp [mergeModes]
  | cons m rest ih =>
    intro seen
    by_cases hc : m.slug ∈ seen
    · have hcc : seen.contains m.slug = true := by simpa using hc
      have hmerge : mergeModes (m :: rest) seen = mergeModes rest seen := by
        simp only [mergeModes]
        rw [if_pos hcc]
      rw [hmerge]
      exact ih seen
    · have hcc : seen.contains m.slug = false := by simpa using hc
      have hmerge : mergeModes (m :: rest) seen = m :: mergeModes rest (m.slug :: seen) := by
        simp only [mergeModes]
        rw [if_neg (by simp [hcc]; exact hc)]
      rw [hmerge]
      obtain ⟨ihn, ihs⟩ := ih (m.slug :: seen)
      constructor
      · simp only [List.map_cons, List.nodup_cons]
        refine ⟨?_, ihn⟩
        intro hmem
        rcases List.mem_map.mp hmem with ⟨x, hx, hxe⟩
        exact ihs x hx (by rw [hxe]; exact List.mem_cons_self _ _)
      · intro x hx
        rcases List.mem_cons.mp hx with rfl | hmem
        · exact hc
        · intro hxs
          exact ihs x hmem (List.mem_cons_of_mem _ hxs)

theorem lookupMode_eq_some_iff :
    ∀ {l : List Mode}, (l.map Mode.slug).Nodup → ∀ {s m},
      (lookupMode l s = some m ↔ m ∈ l ∧ m.slug = s) := by
  intro l
  induction l with
  | nil => intro _ s m; simp [lookupMode]
  | cons a rest ih =>
    intro hn s m
    simp only [List.map_cons, List.nodup_cons] at hn
    by_cases ha : a.slug = s
    · rw [lookupMode_cons, if_pos ha]
      constructor
      · intro h
        obtain rfl := Option.some.inj h
        exact ⟨List.mem_cons_self _ _, ha⟩
      · rintro ⟨hmem, hms⟩
        rcases List.mem_cons.mp hmem with rfl | hmem2
        · rfl
        · exact absurd (List.mem_map.mpr ⟨m, hmem2, by rw [hms, ha]⟩) hn.1
    · rw [lookupMode_cons, if_neg ha, ih hn.2]
      constructor
      · rintro ⟨hmem, hms⟩
        exact ⟨List.mem_cons_of_mem _ hmem, hms⟩
      · rintro ⟨hmem, hms⟩
        rcases List.mem_cons.mp hmem with rfl | hmem2
        · exact absurd hms ha
        · exact ⟨hmem2, hms⟩

theorem lookupMode_perm {l₁ l₂ : List Mode} (hp : l₁.Perm l₂)
    (hn : (l₁.map Mode.slug).Nodup) (s : String) :
    lookupMode l₁ s = lookupMode l₂ s := by
  have hn₂ : (l₂.map Mode.slug).Nodup := ((hp.map Mode.slug).nodup_iff).mp hn
  cases h : lookupMode l₁ s with
  | some m =>
    obtain ⟨hmem, hms⟩ := (lookupMode_eq_some_iff hn).mp h
    exact ((lookupMode_eq_some_iff hn₂).mpr ⟨hp.mem_iff.mp hmem, hms⟩).symm
  | none =>
    cases h₂ : lookupMode l₂ s with
    | none => rfl
    | some m =>
      obtain ⟨hmem, hms⟩ := (lookupMode_eq_some_iff hn₂).mp h₂
      exact absurd hms (lookupMode_eq_none_iff.mp h m (hp.mem_iff.mpr hmem))

theorem load_ok_valid_mem {t : FSTree} {l : List Mode}
    (hok : loadModesFromDirectory t = .ok l)
    {p : List String} {d : FileData} {m : Mode}
    (hmem : (p, d) ∈ scanRoot t) (hv : loadAndValidateMode d = some m) : m ∈ l := by
  simp only [loadModesFromDirectory] at hok
  cases hc : collectModes (scanRoot t) [] with
  | error e => rw [hc] at hok; exact absurd hok (by simp [Except.map])
  | ok l' =>
    rw [hc] at hok
    simp only [Except.map, Except.ok.injEq] at hok
    have hl' : l' = validModes (scanRoot t) := collect_ok_eq _ _ _ hc
    have hm : m ∈ validModes (scanRoot t) := mem_validModes.mpr ⟨p, d, hmem, hv⟩
    rw [← hok]
    exact ((sortBySlug_perm l').mem_iff).mpr (hl' ▸ hm)

/-- C3: a candidate file whose content fails to parse as a single mapping or
fails schema validation is skipped, and exactly it: the load result equals
the result for the same directory without that file, and every valid
sibling's mode is still in a successful result. A content error in one file
never aborts the whole scan. -/
theorem c3_malformed_file_skipped (es₁ es₂ : List (String × FSTree)) (n : String)
    (d : FileData) (hbad : loadAndValidateMode d = none) :
    loadModesFromDirectory (.dir (es₁ ++ (n, .file d) :: es₂)) =
      loadModesFromDirectory (.dir (es₁ ++ es₂)) ∧
    (∀ l, loadModesFromDirectory (.dir (es₁ ++ (n, .file d) :: es₂)) = .ok l →
      ∀ p' d' m', (p', d') ∈ scanRoot (.dir (es₁ ++ (n, .file d) :: es₂)) →
        loadAndValidateMode d' = some m' → m' ∈ l) := by
  constructor
  · simp only [loadModesFromDirectory, scanRoot]
    rw [scanEntries_append, scanEntries_append, scanEntries_cons]
    by_cases hf : fileOk n
    · simp only [processEntry, if_pos hf, List.singleton_append]
      rw [collect_skip [n] d hbad (scanEntries es₁) (scanEntries es₂) []]
    · simp only [processEntry, if_neg hf, List.nil_append]
  · intro l hok p' d' m' hmem hv
    exact load_ok_valid_mem hok hmem hv

/-- C4 counterexample: the claim says a failure to read the file's text (an
I/O error) propagates as an error instead of yielding null; in the source the
`readFile` call sits inside the same try/catch as parsing and validation, so
a read failure yields null as well. -/
theorem c4_counterexample_read_error_yields_null :
    loadAndValidateMode FileData.readFail = none := rfl

/-- C4 (amended): the per-file loader never throws at all — a parse failure,
a non-mapping parse, a schema-validation failure, and equally a failure to
read the file's text, all yield null. -/
theorem c4_amended_loader_never_throws (d : FileData)
    (h : d = .readFail ∨ d = .parseFail ∨ d = .nonMapping ∨
      ∃ r, d = .mapping r ∧ modeConfigSafeParse r = none) :
    loadAndValidateMode d = none := by
  rcases h with rfl | rfl | rfl | ⟨r, rfl, hr⟩
  · rfl
  · rfl
  · rfl
  · simp [loadAndValidateMode, hr]

theorem c4_amended_loader_never_throws_witness :
    (FileData.readFail = FileData.readFail ∨ FileData.readFail = FileData.parseFail ∨
      FileData.readFail = FileData.nonMapping ∨
      ∃ r, FileData.readFail = FileData.mapping r ∧ modeConfigSafeParse r = none) ∧
    loadAndValidateMode FileData.readFail = none :=
  ⟨Or.inl rfl, c4_amended_loader_never_throws FileData.readFail (Or.inl rfl)⟩

/-- C7: a missing or unreadable root directory yields the empty mode list
rather than an error, and a missing or unreadable subdirectory anywhere in
the tree is skipped while the rest of the tree is still scanned. -/
theorem c7_missing_root_empty :
    loadModesFromDirectory .badDir = .ok [] ∧
    (∀ es₁ es₂ n, loadModesFromDirectory (.dir (es₁ ++ (n, FSTree.badDir) :: es₂)) =
      loadModesFromDirectory (.dir (es₁ ++ es₂))) := by
  constructor
  · rfl
  · intro es₁ es₂ n
    simp only [loadModesFromDirectory, scanRoot]
    rw [scanEntries_append, scanEntries_append, scanEntries_cons]
    simp only [processEntry, List.nil_append]

/-- C8: during the scan, a hidden directory entry (name starting with a dot)
is skipped and never descended into, except the exempted `.roo` directory,
which is still walked. -/
theorem c8_hidden_dirs_skipped_except_roo (name : String) (es rest : List (String × FSTree))
    (hh : strStartsWith name "." = true) (hne : name ≠ ".roo") :
    scanEntries ((name, FSTree.dir es) :: rest) = scanEntries rest ∧
    scanEntries ((".roo", FSTree.dir es) :: rest) =
      (scanEntries es).map (fun pd => (".roo" :: pd.1, pd.2)) ++ scanEntries rest := by
  constructor
  · rw [scanEntries_cons]
    have hskip : dirSkip name = true := by
      simp only [dirSkip, hiddenSkip, hh, Bool.true_and, Bool.or_eq_true]
      left
      simp [hne]
    simp [processEntry, hskip]
  · rw [scanEntries_cons]
    have hskip : dirSkip ".roo" = false := by decide
    simp [processEntry, hskip]

theorem c8_hidden_dirs_skipped_except_roo_witness :
    (strStartsWith ".git" "." = true ∧ ".git" ≠ ".roo") ∧
    (scanEntries [(".git", FSTree.dir [])] = scanEntries [] ∧
      scanEntries [(".roo", FSTree.dir [])] =
        (scanEntries []).map (fun pd => (".roo" :: pd.1, pd.2)) ++ scanEntries []) :=
  ⟨⟨by decide, by decide⟩,
    c8_hidden_dirs_skipped_except_roo ".git" [] [] (by decide) (by decide)⟩

/-- C9: the extension test lowercases the extension before comparing it with
the allowed set, so a candidate file with an upper- or mixed-case YAML
extension is accepted. -/
theorem c9_extension_case_insensitive (name : String) (d : FileData)
    (rest : List (String × FSTree))
    (hx : EXCLUDED_FILES.contains name = false)
    (he : ALLOWED_EXTENSIONS.contains (strToLower (extname name)) = true)
    (hu : strStartsWith name "_" = false) :
    scanEntries ((name, FSTree.file d) :: rest) = ([name], d) :: scanEntries rest := by
  rw [scanEntries_cons]
  have hok : fileOk name = true := by
    simp only [fileOk, hx, he, hu]
    rfl
  simp [processEntry, hok]

theorem c9_extension_case_insensitive_witness :
    (EXCLUDED_FILES.contains "MODE.YAML" = false ∧
      ALLOWED_EXTENSIONS.contains (strToLower (extname "MODE.YAML")) = true ∧
      strStartsWith "MODE.YAML" "_" = false) ∧
    scanEntries [("MODE.YAML", FSTree.file FileData.parseFail)] =
      (["MODE.YAML"], FileData.parseFail) :: scanEntries [] :=
  ⟨⟨by decide, by decide, by decide⟩,
    c9_extension_case_insensitive "MODE.YAML" FileData.parseFail []
      (by decide) (by decide) (by decide)⟩

theorem c3_malformed_file_skipped_witness :
    loadAndValidateMode FileData.parseFail = none ∧
    (loadModesFromDirectory (FSTree.dir ([] ++ ("bad.yaml", FSTree.file FileData.parseFail) :: [])) =
        loadModesFromDirectory (FSTree.dir ([] ++ [])) ∧
      (∀ l, loadModesFromDirectory
          (FSTree.dir ([] ++ ("bad.yaml", FSTree.file FileData.parseFail) :: [])) = .ok l →
        ∀ p' d' m', (p', d') ∈ scanRoot
            (FSTree.dir ([] ++ ("bad.yaml", FSTree.file FileData.parseFail) :: [])) →
          loadAndValidateMode d' = some m' → m' ∈ l)) :=
  ⟨rfl, c3_malformed_file_skipped [] [] "bad.yaml" FileData.parseFail rfl⟩

/-- C1: when two scanned candidate files of the same root both load and
validate to modes with one slug, `loadModesFromDirectory` fails with a
`DuplicateSlugError` — no mode list is returned — whose two path fields are
distinct paths of same-slug valid candidates and whose message names them
both. -/
theorem c1_duplicate_slug_fatal (t : FSTree) (p₁ p₂ : List String) (d₁ d₂ : FileData)
    (m₁ m₂ : Mode) (hw : wfTree t = true)
    (h₁ : (p₁, d₁) ∈ scanRoot t) (h₂ : (p₂, d₂) ∈ scanRoot t) (hne : p₁ ≠ p₂)
    (hv₁ : loadAndValidateMode d₁ = some m₁) (hv₂ : loadAndValidateMode d₂ = some m₂)
    (hs : m₁.slug = m₂.slug) :
    ∃ e : DuplicateSlugError,
      loadModesFromDirectory t = .error e ∧
      (∀ l, loadModesFromDirectory t ≠ .ok l) ∧
      e.firstPath ≠ e.secondPath ∧
      (∃ dA mA, (e.firstPath, dA) ∈ scanRoot t ∧ loadAndValidateMode dA = some mA ∧
        mA.slug = e.slug) ∧
      (∃ dB mB, (e.secondPath, dB) ∈ scanRoot t ∧ loadAndValidateMode dB = some mB ∧
        mB.slug = e.slug) ∧
      e.message = "Duplicate mode slug detected: \"" ++ e.slug ++ "\". Files: " ++
        pathToString e.firstPath ++ " and " ++ pathToString e.secondPath := by
  rcases collect_error_exists (scanRoot t) []
      (Or.inl ⟨p₁, d₁, m₁, p₂, d₂, m₂, h₁, h₂, hne, hv₁, hv₂, hs⟩) with ⟨e, he⟩
  have hnd : ((scanRoot t).map Prod.fst).Nodup := by
    cases t with
    | dir es => exact scan_paths_nodup es (by simpa [wfTree] using hw)
    | file d => simp [scanRoot]
    | badDir => simp [scanRoot]
  obtain ⟨⟨dB, mB, hB1, hB2, hB3⟩, hBor, hCne⟩ :=
    collect_error_char (scanRoot t) [] e he hnd (fun sp hsp => absurd hsp (List.not_mem_nil sp))
  have hA : ∃ dA mA, (e.firstPath, dA) ∈ scanRoot t ∧ loadAndValidateMode dA = some mA ∧
      mA.slug = e.slug := by
    rcases hBor with hL | hR
    · simp at hL
    · exact hR
  refine ⟨e, ?_, ?_, hCne, hA, ⟨dB, mB, hB1, hB2, hB3⟩, rfl⟩
  · simp only [loadModesFromDirectory, he, Except.map]
  · intro l hl
    simp only [loadModesFromDirectory, he, Except.map] at hl
    exact Except.noConfusion hl

theorem c1_duplicate_slug_fatal_witness :
    (wfTree (FSTree.dir [("a.yaml", FSTree.file (FileData.mapping
          ⟨some "dup", some "One", some "r", some ["read"], none⟩)),
        ("b.yaml", FSTree.file (FileData.mapping
          ⟨some "dup", some "One", some "r", some ["read"], none⟩))]) = true) ∧
    ((["a.yaml"], FileData.mapping ⟨some "dup", some "One", some "r", some ["read"], none⟩) ∈
      scanRoot (FSTree.dir [("a.yaml", FSTree.file (FileData.mapping
          ⟨some "dup", some "One", some "r", some ["read"], none⟩)),
        ("b.yaml", FSTree.file (FileData.mapping
          ⟨some "dup", some "One", some "r", some ["read"], none⟩))])) ∧
    ((["b.yaml"], FileData.mapping ⟨some "dup", some "One", some "r", some ["read"], none⟩) ∈
      scanRoot (FSTree.dir [("a.yaml", FSTree.file (FileData.mapping
          ⟨some "dup", some "One", some "r", some ["read"], none⟩)),
        ("b.yaml", FSTree.file (FileData.mapping
          ⟨some "dup", some "One", some "r", some ["read"], none⟩))])) ∧
    (["a.yaml"] ≠ ["b.yaml"]) ∧
    (∃ e : DuplicateSlugError,
      loadModesFromDirectory (FSTree.dir [("a.yaml", FSTree.file (FileData.mapping
          ⟨some "dup", some "One", some "r", some ["read"], none⟩)),
        ("b.yaml", FSTree.file (FileData.mapping
          ⟨some "dup", some "One", some "r", some ["read"], none⟩))]) = .error e ∧
      (∀ l, loadModesFromDirectory (FSTree.dir [("a.yaml", FSTree.file (FileData.mapping
          ⟨some "dup", some "One", some "r", some ["read"], none⟩)),
        ("b.yaml", FSTree.file (FileData.mapping
          ⟨some "dup", some "One", some "r", some ["read"], none⟩))]) ≠ .ok l) ∧
      e.firstPath ≠ e.secondPath ∧
      (∃ dA mA, (e.firstPath, dA) ∈ scanRoot (FSTree.dir [("a.yaml", FSTree.file (FileData.mapping
          ⟨some "dup", some "One", some "r", some ["read"], none⟩)),
        ("b.yaml", FSTree.file (FileData.mapping
          ⟨some "dup", some "One", some "r", some ["read"], none⟩))]) ∧
        loadAndValidateMode dA = some mA ∧ mA.slug = e.slug) ∧
      (∃ dB mB, (e.secondPath, dB) ∈ scanRoot (FSTree.dir [("a.yaml", FSTree.file (FileData.mapping
          ⟨some "dup", some "One", some "r", some ["read"], none⟩)),
        ("b.yaml", FSTree.file (FileData.mapping
          ⟨some "dup", some "One", some "r", some ["read"], none⟩))]) ∧
        loadAndValidateMode dB = some mB ∧ mB.slug = e.slug) ∧
      e.message = "Duplicate mode slug detected: \"" ++ e.slug ++ "\". Files: " ++
        pathToString e.firstPath ++ " and " ++ pathToString e.secondPath) :=
  ⟨by simp only [wfTree, wfEntries]; decide,
   by simp only [scanRoot, scanEntries]; decide,
   by simp only [scanRoot, scanEntries]; decide,
   by decide,
   c1_duplicate_slug_fatal _ ["a.yaml"] ["b.yaml"]
     (FileData.mapping ⟨some "dup", some "One", some "r", some ["read"], none⟩)
     (FileData.mapping ⟨some "dup", some "One", some "r", some ["read"], none⟩)
     ⟨"dup", "One", "r", ["read"], none⟩ ⟨"dup", "One", "r", ["read"], none⟩
     (by simp only [wfTree, wfEntries]; decide)
     (by simp only [scanRoot, scanEntries]; decide)
     (by simp only [scanRoot, scanEntries]; decide)
     (by decide) rfl rfl rfl⟩

/-- C5: every mode in a successful load comes from a scanned candidate file
whose directory segments are never excluded directories, whose name has an
allowed (lowercased) YAML extension, does not start with an underscore, and
is not an excluded file — so no mode is ever loaded from a file under an
excluded directory, with a disallowed extension, or with an
underscore-prefixed name. -/
theorem c5_exclusion (t : FSTree) (l : List Mode) (hok : loadModesFromDirectory t = .ok l)
    (m : Mode) (hm : m ∈ l) :
    ∃ p d dirs name, (p, d) ∈ scanRoot t ∧ loadAndValidateMode d = some m ∧
      p = dirs ++ [name] ∧
      (∀ seg ∈ dirs, EXCLUDED_DIRS.contains seg = false) ∧
      ALLOWED_EXTENSIONS.contains (strToLower (extname name)) = true ∧
      strStartsWith name "_" = false ∧
      EXCLUDED_FILES.contains name = false := by
  simp only [loadModesFromDirectory] at hok
  cases hc : collectModes (scanRoot t) [] with
  | error e => rw [hc] at hok; exact absurd hok (by simp [Except.map])
  | ok l' =>
    rw [hc] at hok
    simp only [Except.map, Except.ok.injEq] at hok
    have hl' : l' = validModes (scanRoot t) := collect_ok_eq _ _ _ hc
    have hm' : m ∈ validModes (scanRoot t) := by
      have hms : m ∈ sortBySlug l' := hok ▸ hm
      exact hl' ▸ ((sortBySlug_perm l').mem_iff.mp hms)
    rcases mem_validModes.mp hm' with ⟨p, d, hmem, hv⟩
    have hscan : ∀ pd ∈ scanRoot t, ∃ dirs name, pd.1 = dirs ++ [name] ∧
        (∀ seg ∈ dirs, dirSkip seg = false) ∧ fileOk name = true := by
      cases t with
      | dir es => exact scan_path_shape es
      | file d2 => intro pd hpd; simp [scanRoot] at hpd
      | badDir => intro pd hpd; simp [scanRoot] at hpd
    rcases hscan (p, d) hmem with ⟨dirs, name, hsh, hdirs, hok2⟩
    simp only [fileOk, Bool.and_eq_true, Bool.not_eq_true'] at hok2
    refine ⟨p, d, dirs, name, hmem, hv, hsh, ?_, hok2.1.2, hok2.2, hok2.1.1⟩
    intro seg hseg
    have hds := hdirs seg hseg
    simp only [dirSkip, Bool.or_eq_false_iff] at hds
    exact hds.2

theorem c5_exclusion_witness :
    (loadModesFromDirectory (FSTree.dir [("m.yaml", FSTree.file (FileData.mapping
        ⟨some "x", some "X", some "r", some ["read"], none⟩))]) =
      .ok [⟨"x", "X", "r", ["read"], none⟩]) ∧
    ((⟨"x", "X", "r", ["read"], none⟩ : Mode) ∈
      ([⟨"x", "X", "r", ["read"], none⟩] : List Mode)) ∧
    (∃ p d dirs name,
      (p, d) ∈ scanRoot (FSTree.dir [("m.yaml", FSTree.file (FileData.mapping
        ⟨some "x", some "X", some "r", some ["read"], none⟩))]) ∧
      loadAndValidateMode d = some ⟨"x", "X", "r", ["read"], none⟩ ∧
      p = dirs ++ [name] ∧
      (∀ seg ∈ dirs, EXCLUDED_DIRS.contains seg = false) ∧
      ALLOWED_EXTENSIONS.contains (strToLower (extname name)) = true ∧
      strStartsWith name "_" = false ∧
      EXCLUDED_FILES.contains name = false) :=
  ⟨by simp only [loadModesFromDirectory, scanRoot, scanEntries]; decide,
   by decide,
   c5_exclusion
     (FSTree.dir [("m.yaml", FSTree.file (FileData.mapping
       ⟨some "x", some "X", some "r", some ["read"], none⟩))])
     [⟨"x", "X", "r", ["read"], none⟩]
     (by simp only [loadModesFromDirectory, scanRoot, scanEntries]; decide)
     ⟨"x", "X", "r", ["read"], none⟩ (by decide)⟩

/-- C10: under a well-formed directory tree, `loadModesFromDirectory` throws
a duplicate-slug error exactly when two distinct scanned candidate files
both validate to modes with the same slug; and in a successful load every
validated candidate's mode — in particular the valid one of a same-slug
pair whose other file failed to parse or validate — appears in the result. -/
theorem c10_duplicate_iff_two_valid (t : FSTree) (hw : wfTree t = true) :
    ((∃ e, loadModesFromDirectory t = .error e) ↔
      (∃ p₁ d₁ m₁ p₂ d₂ m₂, (p₁, d₁) ∈ scanRoot t ∧ (p₂, d₂) ∈ scanRoot t ∧ p₁ ≠ p₂ ∧
        loadAndValidateMode d₁ = some m₁ ∧ loadAndValidateMode d₂ = some m₂ ∧
        m₁.slug = m₂.slug)) ∧
    (∀ l p d m, loadModesFromDirectory t = .ok l → (p, d) ∈ scanRoot t →
      loadAndValidateMode d = some m → m ∈ l) := by
  have hnd : ((scanRoot t).map Prod.fst).Nodup := by
    cases t with
    | dir es => exact scan_paths_nodup es (by simpa [wfTree] using hw)
    | file d => simp [scanRoot]
    | badDir => simp [scanRoot]
  constructor
  · constructor
    · rintro ⟨e, he⟩
      have hce : collectModes (scanRoot t) [] = .error e := by
        simp only [loadModesFromDirectory] at he
        cases hc : collectModes (scanRoot t) [] with
        | error e2 =>
          rw [hc] at he
          simp only [Except.map, Except.error.injEq] at he
          rw [he]
        | ok l2 => rw [hc] at he; exact absurd he (by simp [Except.map])
      obtain ⟨⟨dB, mB, hB1, hB2, hB3⟩, hBor, hCne⟩ :=
        collect_error_char (scanRoot t) [] e hce hnd
          (fun sp hsp => absurd hsp (List.not_mem_nil sp))
      rcases hBor with hL | ⟨dA, mA, hA1, hA2, hA3⟩
      · exact absurd hL (List.not_mem_nil _)
      · exact ⟨e.firstPath, dA, mA, e.secondPath, dB, mB, hA1, hB1, hCne, hA2, hB2,
          by rw [hA3, hB3]⟩
    · rintro ⟨p₁, d₁, m₁, p₂, d₂, m₂, h₁, h₂, hne, hv₁, hv₂, hs⟩
      rcases collect_error_exists (scanRoot t) []
          (Or.inl ⟨p₁, d₁, m₁, p₂, d₂, m₂, h₁, h₂, hne, hv₁, hv₂, hs⟩) with ⟨e, he⟩
      exact ⟨e, by simp only [loadModesFromDirectory, he, Except.map]⟩
  · intro l p d m hok hmem hv
    exact load_ok_valid_mem hok hmem hv

theorem c10_duplicate_iff_two_valid_witness :
    (wfTree (FSTree.dir [("m.yaml", FSTree.file (FileData.mapping
        ⟨some "x", some "X", some "r", some ["read"], none⟩))]) = true) ∧
    (((∃ e, loadModesFromDirectory (FSTree.dir [("m.yaml", FSTree.file (FileData.mapping
          ⟨some "x", some "X", some "r", some ["read"], none⟩))]) = .error e) ↔
        (∃ p₁ d₁ m₁ p₂ d₂ m₂,
          (p₁, d₁) ∈ scanRoot (FSTree.dir [("m.yaml", FSTree.file (FileData.mapping
            ⟨some "x", some "X", some "r", some ["read"], none⟩))]) ∧
          (p₂, d₂) ∈ scanRoot (FSTree.dir [("m.yaml", FSTree.file (FileData.mapping
            ⟨some "x", some "X", some "r", some ["read"], none⟩))]) ∧ p₁ ≠ p₂ ∧
          loadAndValidateMode d₁ = some m₁ ∧ loadAndValidateMode d₂ = some m₂ ∧
          m₁.slug = m₂.slug)) ∧
      (∀ l p d m, loadModesFromDirectory (FSTree.dir [("m.yaml", FSTree.file (FileData.mapping
          ⟨some "x", some "X", some "r", some ["read"], none⟩))]) = .ok l →
        (p, d) ∈ scanRoot (FSTree.dir [("m.yaml", FSTree.file (FileData.mapping
          ⟨some "x", some "X", some "r", some ["read"], none⟩))]) →
        loadAndValidateMode d = some m → m ∈ l)) :=
  ⟨by simp only [wfTree, wfEntries]; decide,
   c10_duplicate_iff_two_valid _ (by simp only [wfTree, wfEntries]; decide)⟩

/-- C2: the merged view of the four sources resolves every slug to its entry
in the first source containing it, in the fixed precedence order project
directory, project monolithic file, global directory, global monolithic
settings file, each stamped with its scope — so a slug taken from a
higher-precedence source is never overwritten, and a slug unique to any
single source appears; in the spec's example scenario the slug `all`
resolves to the project-directory variant with source `project`. -/
theorem c2_precedence_merge (projDir projFile globDir globFile : List Mode) (s : String) :
    lookupMode (getCustomModes projDir projFile globDir globFile) s =
      lookupMode (allSources projDir projFile globDir globFile) s ∧
    lookupMode (getCustomModes
      [⟨"all", "All ProjectDir", "r", ["read"], none⟩]
      [⟨"all", "All ProjectFile", "r", ["read"], none⟩]
      [⟨"all", "All GlobalDir", "r", ["read"], none⟩]
      [⟨"all", "All GlobalSettings", "r", ["read"], none⟩]) "all" =
      some ⟨"all", "All ProjectDir", "r", ["read"], some ModeSource.project⟩ := by
  constructor
  · simp only [getCustomModes]
    have hnM := (mergeModes_slug_nodup (allSources projDir projFile globDir globFile) []).1
    have h1 : lookupMode
        (sortBySlug (mergeModes (allSources projDir projFile globDir globFile) [])) s =
        lookupMode (mergeModes (allSources projDir projFile globDir globFile) []) s :=
      lookupMode_perm (sortBySlug_perm _)
        (((sortBySlug_perm _).map Mode.slug).nodup_iff.mpr hnM) s
    rw [h1]
    exact (mergeModes_lookup _ [] s).2 (List.not_mem_nil s)
  · decide

/-- C6: resolving the same file contents twice with the directory-listing
order permuted at every level yields the identical slug-sorted mode list —
the result of a successful load is independent of filesystem iteration
order. -/
theorem c6_determinism (t₁ t₂ : FSTree) (hp : FSPerm t₁ t₂) (l : List Mode)
    (h₁ : loadModesFromDirectory t₁ = .ok l) :
    loadModesFromDirectory t₂ = .ok l ∧ List.Pairwise slugLe l := by
  have hscan : (scanRoot t₁).Perm (scanRoot t₂) := fsPerm_scanRoot hp
  simp only [loadModesFromDirectory] at h₁ ⊢
  cases hc : collectModes (scanRoot t₁) [] with
  | error e => rw [hc] at h₁; exact absurd h₁ (by simp [Except.map])
  | ok l₁ =>
    rw [hc] at h₁
    simp only [Except.map, Except.ok.injEq] at h₁
    have hl₁ : l₁ = validModes (scanRoot t₁) := collect_ok_eq _ _ _ hc
    have hnod : (validSlugs (scanRoot t₁)).Nodup := (collect_ok_nodup _ _ _ hc).1
    have hvp : (validModes (scanRoot t₁)).Perm (validModes (scanRoot t₂)) :=
      hscan.filterMap _
    have hnod₂ : (validSlugs (scanRoot t₂)).Nodup :=
      ((hvp.map _).nodup_iff).mp hnod
    have hok₂ : collectModes (scanRoot t₂) [] = .ok (validModes (scanRoot t₂)) :=
      collect_ok_of_nodup _ [] hnod₂ (fun s _ => rfl)
    rw [hok₂]
    simp only [Except.map, Except.ok.injEq]
    constructor
    · rw [← h₁, hl₁]
      exact (sortBySlug_eq_of_perm hvp hnod).symm
    · rw [← h₁]
      exact sortBySlug_sorted l₁

theorem c6_determinism_witness :
    FSPerm
      (FSTree.dir [("a.yaml", FSTree.file (FileData.mapping
          ⟨some "alpha", some "Alpha", some "r", some ["read"], none⟩)),
        ("skip.txt", FSTree.file FileData.parseFail)])
      (FSTree.dir [("skip.txt", FSTree.file FileData.parseFail),
        ("a.yaml", FSTree.file (FileData.mapping
          ⟨some "alpha", some "Alpha", some "r", some ["read"], none⟩))]) ∧
    loadModesFromDirectory
      (FSTree.dir [("a.yaml", FSTree.file (FileData.mapping
          ⟨some "alpha", some "Alpha", some "r", some ["read"], none⟩)),
        ("skip.txt", FSTree.file FileData.parseFail)]) =
      .ok [⟨"alpha", "Alpha", "r", ["read"], none⟩] ∧
    (loadModesFromDirectory
      (FSTree.dir [("skip.txt", FSTree.file FileData.parseFail),
        ("a.yaml", FSTree.file (FileData.mapping
          ⟨some "alpha", some "Alpha", some "r", some ["read"], none⟩))]) =
      .ok [⟨"alpha", "Alpha", "r", ["read"], none⟩] ∧
      List.Pairwise slugLe [⟨"alpha", "Alpha", "r", ["read"], none⟩]) :=
  ⟨FSPerm.dir _ _ (EntriesPerm.swap _ _ []),
   by simp only [loadModesFromDirectory, scanRoot, scanEntries]; decide,
   c6_determinism _ _ (FSPerm.dir _ _ (EntriesPerm.swap _ _ []))
     [⟨"alpha", "Alpha", "r", ["read"], none⟩]
     (by simp only [loadModesFromDirectory, scanRoot, scanEntries]; decide)⟩
